import Mathlib

/-!
Shallow embedding of the retrieval backend (`main.py` / `schemas.py`).

Text is modelled as `List Char` (Python `str`), Python floats as exact
numbers (`ℚ` for the stored term counts, `ℝ` for the cosine score, since
the score involves a square root), and Python dicts as association lists
in insertion order, which is exactly the iteration order of a Python dict.
The store operations imported from the absent `database.py` module are
modelled from the spec where noted.
-/

/-- A token / dict key: Python strings, modelled as character lists. -/
abbrev Term := List Char

/-- A sparse term-weight map (`Dict[str, float]`), an association list in
insertion order, as a Python dict iterates. -/
abbrev SparseVec := List (Term × ℚ)

/-- Python `d.get(t, 0.0)`: value of the unique entry with key `t`, else 0. -/
def SparseVec.get : SparseVec → Term → ℚ
  | [], _ => 0
  | p :: v, t => if p.1 = t then p.2 else SparseVec.get v t

/-- Python `t in d`: whether the dict has key `t`. -/
def SparseVec.hasKey : SparseVec → Term → Bool
  | [], _ => false
  | p :: v, t => p.1 = t || SparseVec.hasKey v t

/-- Keys of the dict, in insertion order. -/
def SparseVec.keys (v : SparseVec) : List Term := v.map (·.1)

/-- Python dict invariant: keys occur at most once. -/
def SparseVec.NodupKeys (v : SparseVec) : Prop := v.keys.Nodup

/-- Python `emb[t] = emb.get(t, 0.0) + 1.0` (`main.py` line 70): dict
assignment updates the entry in place when the key exists, otherwise
appends a new entry at the end (dict insertion-order semantics). -/
def dictIncr (m : SparseVec) (t : Term) : SparseVec :=
  if m.hasKey t then m.map (fun p => if p.1 = t then (p.1, p.2 + 1) else p)
  else m ++ [(t, SparseVec.get m t + 1)]

/-- Python `s.lower()` (ASCII model of Python case folding). -/
def pyLower (s : List Char) : List Char := s.map Char.toLower

/-- Accumulator-based splitter behind `pySplit`. -/
def splitWsAux : List Char → List Char → List Term
  | [], acc => if acc.isEmpty then [] else [acc.reverse]
  | c :: cs, acc =>
    if c.isWhitespace then
      if acc.isEmpty then splitWsAux cs [] else acc.reverse :: splitWsAux cs []
    else splitWsAux cs (c :: acc)

/-- Python `s.split()`: split on runs of whitespace, dropping empty pieces. -/
def pySplit (s : List Char) : List Term := splitWsAux s []

/-- Python `t.isalpha()` (ASCII model): nonempty and purely alphabetic. -/
def pyIsAlpha (t : Term) : Bool := !t.isEmpty && t.all Char.isAlpha

/-- Python `t.isalnum()` (ASCII model): nonempty and purely alphanumeric. -/
def pyIsAlnum (t : Term) : Bool := !t.isEmpty && t.all Char.isAlphanum

/-- Tokens kept by ingestion (`main.py` line 67):
`[t for t in ch.lower().split() if t.isalpha() or t.isalnum()]`. -/
def ingestTokens (ch : List Char) : List Term :=
  (pySplit (pyLower ch)).filter (fun t => pyIsAlpha t || pyIsAlnum t)

/-- The sparse embedding built by ingestion (`main.py` lines 67-70): start
from the empty dict and increment the count of each kept token in order. -/
def ingestVec (ch : List Char) : SparseVec :=
  (ingestTokens ch).foldl dictIncr []

/-- Tokens kept by the query path (`main.py` line 131):
`[t for t in query.lower().split() if t.isalpha() or t.isalnum()]`. -/
def queryTokens (q : List Char) : List Term :=
  (pySplit (pyLower q)).filter (fun t => pyIsAlpha t || pyIsAlnum t)

/-- The query vector built by search (`main.py` lines 131-134), a second
copy of the same token-counting loop as ingestion. -/
def queryVec (q : List Char) : SparseVec :=
  (queryTokens q).foldl dictIncr []

/-- Chunking (`main.py` lines 62-64):
`chunks = [text[i:i+step] for i in range(0, len(text), step)] or [""]`
with `step = 500`.  `range(0, L, 500)` has `⌈L/500⌉ = (L + 499) / 500`
elements and its `k`-th element is `k*500`; the Python slice
`text[i:i+500]` is `(text.drop i).take 500`; `or [""]` replaces an empty
list comprehension by a single empty slice. -/
def chunkSlices (text : List Char) : List (List Char) :=
  let step := 500
  let raw := (List.range ((text.length + step - 1) / step)).map
    (fun k => (text.drop (k * step)).take step)
  if raw.isEmpty then [[]] else raw

/-- Python `sum(q_vec.get(t, 0.0) * d_vec.get(t, 0.0) for t in q_vec.keys())`
(`main.py` line 125): the dot product iterated over the query dict's keys. -/
def dotProd (q d : SparseVec) : ℚ :=
  (q.map (fun p => q.get p.1 * d.get p.1)).sum

/-- Python `sum(v*v for v in vec.values())` (`main.py` lines 126-127): the
squared Euclidean norm of a sparse vector. -/
def normSq (v : SparseVec) : ℚ :=
  (v.map (fun p => p.2 * p.2)).sum

/-- The scoring function `score` (`main.py` lines 122-128): cosine
similarity on term-frequency dicts. `if not q_vec or not d_vec: return 0.0`
is the dict-emptiness guard, and `dot / (qn * dn) if qn and dn else 0.0`
divides only when both float norms are nonzero; the locals `dot`, `qn`,
`dn` are inlined here. -/
noncomputable def score (q d : SparseVec) : ℝ :=
  if q.isEmpty || d.isEmpty then 0
  else if Real.sqrt ((normSq q : ℚ) : ℝ) ≠ 0 ∧ Real.sqrt ((normSq d : ℚ) : ℝ) ≠ 0 then
    ((dotProd q d : ℚ) : ℝ) / (Real.sqrt ((normSq q : ℚ) : ℝ) * Real.sqrt ((normSq d : ℚ) : ℝ))
  else 0

/-- Metadata written on a chunk at ingestion (`main.py` line 76):
the owning document's title and the chunk's sequential index. -/
structure ChunkMeta where
  title : String
  chunk : ℕ
deriving DecidableEq

/-- A stored chunk record (collection `chunk`; schema `Chunk` in
`schemas.py`).  `embedding` is optional because a stored record may lack
the field (`ch.get("embedding", {})` in `main.py` line 138). -/
structure ChunkRec where
  doc_id : String
  text : List Char
  page : Option ℕ := none
  embedding : Option SparseVec
  metadata : Option ChunkMeta := none
deriving DecidableEq

/-- One entry of the `matches` list built by search (`main.py`
lines 140-145). -/
structure SearchHit where
  doc_id : String
  text : List Char
  hitScore : ℝ
  metadata : Option ChunkMeta

/-- The match-building loop of `semantic_search` (`main.py` lines 136-145):
score each scanned chunk against the query vector and keep it exactly when
its score is strictly positive (`if s > 0`), projecting out doc id, the
first 500 characters of the text, the score, and the metadata; the local
`s` is inlined. -/
noncomputable def buildMatches (qv : SparseVec) : List ChunkRec → List SearchHit
  | [] => []
  | ch :: rest =>
    if 0 < score qv (ch.embedding.getD []) then
      { doc_id := ch.doc_id, text := ch.text.take 500,
        hitScore := score qv (ch.embedding.getD []),
        metadata := ch.metadata } :: buildMatches qv rest
    else buildMatches qv rest

/-- The ranking relation of `matches.sort(key=lambda x: x["score"],
reverse=True)` (`main.py` line 146): descending by score. -/
def rankLe (a b : SearchHit) : Prop := b.hitScore ≤ a.hitScore

noncomputable instance : DecidableRel rankLe :=
  fun a b => Real.decidableLE b.hitScore a.hitScore

instance : IsTotal SearchHit rankLe := ⟨fun a b => le_total b.hitScore a.hitScore⟩

instance : IsTrans SearchHit rankLe := ⟨fun _ _ _ h1 h2 => le_trans h2 h1⟩

/-- The sorted match list (`main.py` lines 136-146): the candidate scan is
capped at 2000 chunks (`find({}).limit(2000)`), and Python's list sort is
stable, so the sort is modelled by the stable `insertionSort` on the
descending-by-score relation. -/
noncomputable def rankedMatches (qv : SparseVec) (chunks : List ChunkRec) : List SearchHit :=
  List.insertionSort rankLe (buildMatches qv (chunks.take 2000))

/-- Python list slicing `l[:k]` for an `int` bound `k` (`main.py`
line 147): a nonnegative bound keeps the first `k` elements; a negative
bound drops the last `|k|` elements (and yields `[]` when `|k| ≥ len`). -/
def pyTakeTo (k : ℤ) (l : List α) : List α :=
  if 0 ≤ k then l.take k.toNat else l.take (l.length - (-k).toNat)

/-- The match list returned by `semantic_search` (`main.py` lines 130-147)
over a given stored chunk sequence: build the query vector, score and
filter the first 2000 chunks, sort descending by score, and apply
`matches[:top_k]`. -/
noncomputable def searchMatches (q : List Char) (top_k : ℤ) (chunks : List ChunkRec) : List SearchHit :=
  pyTakeTo top_k (rankedMatches (queryVec q) chunks)

/-- A dynamically-typed value that can sit in a stored chunk's `embedding`
field: a mapping, or some non-mapping value (string, number, null).  Only
the distinctions that the code path can observe are modelled: being a
mapping, and Python truthiness. -/
inductive PyVal where
  | dict (m : SparseVec)
  | str (s : String)
  | int (n : ℤ)
  | null

/-- Python truthiness of a `PyVal` (`not d_vec` in `main.py` line 123). -/
def pyTruthy : PyVal → Bool
  | .dict m => !m.isEmpty
  | .str s => !(s = "")
  | .int n => !(n = 0)
  | .null => false

/-- A stored chunk whose `embedding` field is dynamically typed (missing,
or holding an arbitrary stored value). -/
structure ChunkDyn where
  doc_id : String
  text : List Char
  embedding : Option PyVal
  metadata : Option ChunkMeta := none

/-- The `score` call on a dynamically-typed document vector (`main.py`
lines 122-128 as reached from line 138): `if not q_vec or not d_vec`
returns 0.0 on a falsy value of any type; otherwise the dot-product
generator calls `d_vec.get`, which raises `AttributeError` unless the
value is a mapping. -/
noncomputable def scoreDyn (q : SparseVec) (d : PyVal) : Except String ℝ :=
  if q.isEmpty || !pyTruthy d then .ok 0
  else
    match d with
    | .dict m => .ok (score q m)
    | _ => .error "AttributeError"

/-- The match-building loop over dynamically-typed chunks (`main.py`
lines 136-145): `ch.get("embedding", {})` substitutes the empty dict for a
missing field, and an exception raised while scoring stops the loop. -/
noncomputable def buildMatchesDyn (qv : SparseVec) : List ChunkDyn → Except String (List SearchHit)
  | [] => .ok []
  | ch :: rest =>
    match scoreDyn qv (ch.embedding.getD (.dict [])) with
    | .error e => .error e
    | .ok s =>
      match buildMatchesDyn qv rest with
      | .error e => .error e
      | .ok ms =>
        .ok (if 0 < s then
          { doc_id := ch.doc_id, text := ch.text.take 500, hitScore := s,
            metadata := ch.metadata } :: ms
        else ms)

/-- Modelled from the spec: the store-native document identifier
(`_id`, a BSON ObjectId generated by the absent `database.py` /
persistence layer).  The spec treats it as an opaque store-assigned unique
value rendered as a plain string, so it is modelled as a natural number
with an injective string rendering and a decidable validity check standing
in for the ObjectId hex format. -/
def oidString (n : ℕ) : String := String.mk (List.replicate (n + 1) 'x')

/-- Modelled from the spec: the `ObjectId(doc_id)` conversion attempted by
`delete_document` (`main.py` line 98) — succeeds exactly on well-formed
renderings of native ids and recovers the native id, and fails (raises) on
any other string. -/
def parseOid (s : String) : Option ℕ :=
  if !s.data.isEmpty && s.data.all (fun c => c = 'x') then some (s.data.length - 1)
  else none

/-- A stored document record (collection `document`; schema `Document` in
`schemas.py`), with its store-native `_id`. -/
structure DocRec where
  nativeId : ℕ
  title : String
  size : ℕ
deriving DecidableEq

/-- The persistence store: the two collections and the generator state for
fresh native ids. -/
structure Store where
  documents : List DocRec
  chunks : List ChunkRec
  nextId : ℕ
deriving DecidableEq

/-- Modelled from the spec: `create_document` from the absent
`database.py` — "insert-one (returns generated id)" with the id
"normalized to a plain string representation"; it appends a document
record with a fresh native id and returns that id rendered as a string. -/
def create_document (st : Store) (title : String) (size : ℕ) : Store × String :=
  ({ st with
      documents := st.documents ++ [⟨st.nextId, title, size⟩],
      nextId := st.nextId + 1 },
   oidString st.nextId)

/-- Ingestion of one uploaded file (`main.py` lines 53-79): create the
document record, split the decoded text into 500-character slices, and
insert one chunk record per slice, carrying the returned document id, the
slice text, the sparse embedding and the metadata. -/
def ingestFile (st : Store) (title : String) (text : List Char) : Store × String :=
  let created := create_document st title text.length
  let doc_id := created.2
  let newChunks := (chunkSlices text).enum.map (fun p =>
    { doc_id := doc_id, text := p.2, page := none,
      embedding := some (ingestVec p.2),
      metadata := some ⟨title, p.1⟩ : ChunkRec })
  ({ created.1 with chunks := created.1.chunks ++ newChunks }, doc_id)

/-- Mongo `delete_one`: remove the first record matching the filter and
report how many records were deleted (0 or 1). -/
def deleteFirst (p : DocRec → Bool) : List DocRec → List DocRec × ℕ
  | [] => ([], 0)
  | d :: ds =>
    if p d then (ds, 1)
    else
      let r := deleteFirst p ds
      (d :: r.1, r.2)

/-- The delete endpoint `delete_document` (`main.py` lines 93-108):
try `ObjectId(doc_id)` and delete one document by native id; if the
conversion fails, fall back to deleting one document whose `_id` equals
the raw string — documents are stored with native ids, so that filter
matches nothing.  Then always delete every chunk whose `doc_id` equals the
given string, and finally report a 404 error exactly when the document
deleted-count is zero. -/
def delete_document (st : Store) (doc_id : String) : Except ℕ Unit × Store :=
  let del :=
    match parseOid doc_id with
    | some n => deleteFirst (fun d => d.nativeId = n) st.documents
    | none => deleteFirst (fun _ => false) st.documents
  let chunks2 := st.chunks.filter (fun ch => !(ch.doc_id = doc_id))
  let st2 : Store := { st with documents := del.1, chunks := chunks2 }
  if del.2 = 0 then (.error 404, st2) else (.ok (), st2)

/-! Dictionary lemmas. -/

theorem SparseVec.keys_cons (p : Term × ℚ) (v : SparseVec) :
    SparseVec.keys (p :: v) = p.1 :: SparseVec.keys v := rfl

theorem SparseVec.hasKey_iff_mem_keys {v : SparseVec} {t : Term} :
    SparseVec.hasKey v t = true ↔ t ∈ SparseVec.keys v := by
  induction v with
  | nil => simp [SparseVec.hasKey, SparseVec.keys]
  | cons p v ih =>
    simp only [SparseVec.hasKey, Bool.or_eq_true, decide_eq_true_eq, ih,
      SparseVec.keys_cons, List.mem_cons]
    exact or_congr eq_comm Iff.rfl

theorem SparseVec.get_eq_zero_of_not_mem_keys {v : SparseVec} {t : Term}
    (h : t ∉ SparseVec.keys v) : SparseVec.get v t = 0 := by
  induction v with
  | nil => rfl
  | cons p v ih =>
    rw [SparseVec.keys_cons, List.mem_cons, not_or] at h
    simp only [SparseVec.get]
    rw [if_neg (fun hh => h.1 hh.symm)]
    exact ih h.2

theorem SparseVec.get_map_incr (tok t : Term) (m : SparseVec) :
    SparseVec.get (m.map (fun p => if p.1 = tok then (p.1, p.2 + 1) else p)) t
      = SparseVec.get m t + (if tok = t ∧ t ∈ SparseVec.keys m then 1 else 0) := by
  induction m with
  | nil => simp [SparseVec.get, SparseVec.keys]
  | cons p m ih =>
    have hmem_cons : ¬ p.1 = t →
        ((t ∈ SparseVec.keys (p :: m)) ↔ t ∈ SparseVec.keys m) := by
      intro hne
      rw [SparseVec.keys_cons, List.mem_cons]
      exact or_iff_right (fun hh => hne hh.symm)
    rw [List.map_cons]
    by_cases hptok : p.1 = tok
    · rw [if_pos hptok]
      by_cases hpt : p.1 = t
      · have htokt : tok = t := hptok.symm.trans hpt
        simp only [SparseVec.get]
        rw [if_pos hpt,
          if_pos (show tok = t ∧ t ∈ SparseVec.keys (p :: m) from
            ⟨htokt, by rw [SparseVec.keys_cons]; exact List.mem_cons.mpr (Or.inl hpt.symm)⟩)]
        simp [hpt]
      · have htokt : ¬ tok = t := fun h => hpt (hptok.trans h)
        simp only [SparseVec.get]
        rw [if_neg hpt, ih]
        simp [htokt, hpt]
    · rw [if_neg hptok]
      by_cases hpt : p.1 = t
      · have htokt : ¬ tok = t := fun h => hptok (by rw [hpt, h])
        simp only [SparseVec.get]
        rw [if_pos hpt, if_neg (show ¬ (tok = t ∧ t ∈ SparseVec.keys (p :: m)) by
          simp [htokt])]
        simp [hpt]
      · simp only [SparseVec.get]
        rw [if_neg hpt, ih]
        simp only [if_neg hpt]
        congr 1
        simp [hmem_cons hpt]

theorem SparseVec.get_append (m₁ m₂ : SparseVec) (t : Term) :
    SparseVec.get (m₁ ++ m₂) t
      = if t ∈ SparseVec.keys m₁ then SparseVec.get m₁ t else SparseVec.get m₂ t := by
  induction m₁ with
  | nil => simp [SparseVec.keys, SparseVec.get]
  | cons p m₁ ih =>
    rw [List.cons_append]
    simp only [SparseVec.get]
    by_cases hpt : p.1 = t
    · rw [if_pos hpt,
        if_pos (show t ∈ SparseVec.keys (p :: m₁) by
          rw [SparseVec.keys_cons]; exact List.mem_cons.mpr (Or.inl hpt.symm))]
      simp [hpt]
    · have hmem : (t ∈ SparseVec.keys (p :: m₁)) ↔ t ∈ SparseVec.keys m₁ := by
        rw [SparseVec.keys_cons, List.mem_cons]
        exact or_iff_right (fun hh => hpt hh.symm)
      rw [if_neg hpt, ih]
      by_cases hm : t ∈ SparseVec.keys m₁
      · rw [if_pos hm, if_pos (hmem.mpr hm)]
        simp [hpt]
      · rw [if_neg hm, if_neg (fun hh => hm (hmem.mp hh))]

theorem get_dictIncr (m : SparseVec) (tok t : Term) :
    SparseVec.get (dictIncr m tok) t
      = SparseVec.get m t + (if tok = t then 1 else 0) := by
  unfold dictIncr
  by_cases hk : SparseVec.hasKey m tok
  · rw [if_pos hk, SparseVec.get_map_incr]
    by_cases htt : tok = t
    · have : t ∈ SparseVec.keys m := htt ▸ SparseVec.hasKey_iff_mem_keys.mp hk
      simp [htt, this]
    · simp [htt]
  · rw [if_neg hk, SparseVec.get_append]
    have hnm : tok ∉ SparseVec.keys m := fun h => hk (SparseVec.hasKey_iff_mem_keys.mpr h)
    by_cases htm : t ∈ SparseVec.keys m
    · have htt : ¬ tok = t := fun h => hnm (h ▸ htm)
      simp [htm, htt]
    · have h0 : SparseVec.get m t = 0 := SparseVec.get_eq_zero_of_not_mem_keys htm
      have h0' : SparseVec.get m tok = 0 := SparseVec.get_eq_zero_of_not_mem_keys hnm
      by_cases htt : tok = t
      · subst htt
        rw [if_neg htm]
        simp [SparseVec.get]
      · rw [if_neg htm, if_neg htt]
        simp [SparseVec.get, htt, h0]

theorem get_foldl_dictIncr (ts : List Term) (m : SparseVec) (t : Term) :
    SparseVec.get (ts.foldl dictIncr m) t = SparseVec.get m t + (ts.count t : ℚ) := by
  induction ts generalizing m with
  | nil => simp
  | cons tok ts ih =>
    rw [List.foldl_cons, ih, get_dictIncr, List.count_cons]
    by_cases h : tok = t
    · simp only [h, if_pos rfl, beq_self_eq_true, if_true]
      push_cast
      ring
    · simp [h, beq_iff_eq]

theorem keys_dictIncr (m : SparseVec) (tok : Term) :
    SparseVec.keys (dictIncr m tok)
      = if SparseVec.hasKey m tok then SparseVec.keys m else SparseVec.keys m ++ [tok] := by
  unfold dictIncr
  by_cases hk : SparseVec.hasKey m tok
  · rw [if_pos hk, if_pos hk]
    unfold SparseVec.keys
    rw [List.map_map]
    apply List.map_congr_left
    intro p _
    by_cases h : p.1 = tok <;> simp [h]
  · rw [if_neg hk, if_neg hk]
    unfold SparseVec.keys
    simp

theorem mem_keys_foldl_dictIncr (ts : List Term) (m : SparseVec) (t : Term) :
    t ∈ SparseVec.keys (ts.foldl dictIncr m) ↔ t ∈ SparseVec.keys m ∨ t ∈ ts := by
  induction ts generalizing m with
  | nil => simp
  | cons tok ts ih =>
    rw [List.foldl_cons, ih, keys_dictIncr]
    by_cases hk : SparseVec.hasKey m tok
    · rw [if_pos hk]
      have : tok ∈ SparseVec.keys m := SparseVec.hasKey_iff_mem_keys.mp hk
      constructor
      · rintro (h | h)
        · exact Or.inl h
        · exact Or.inr (List.mem_cons_of_mem _ h)
      · rintro (h | h)
        · exact Or.inl h
        · rcases List.mem_cons.mp h with h | h
          · exact Or.inl (h ▸ this)
          · exact Or.inr h
    · rw [if_neg hk]
      simp only [List.mem_append, List.mem_singleton, List.mem_cons]
      tauto

theorem nodupKeys_foldl_dictIncr (ts : List Term) (m : SparseVec)
    (h : SparseVec.NodupKeys m) : SparseVec.NodupKeys (ts.foldl dictIncr m) := by
  induction ts generalizing m with
  | nil => exact h
  | cons tok ts ih =>
    rw [List.foldl_cons]
    apply ih
    unfold SparseVec.NodupKeys at h ⊢
    rw [keys_dictIncr]
    by_cases hk : SparseVec.hasKey m tok
    · rw [if_pos hk]; exact h
    · rw [if_neg hk]
      have : tok ∉ SparseVec.keys m := fun hm => hk (SparseVec.hasKey_iff_mem_keys.mpr hm)
      simp [List.nodup_append, h, this]

theorem pos_values_foldl_dictIncr (ts : List Term) (m : SparseVec)
    (h : ∀ p ∈ m, 0 < p.2) : ∀ p ∈ ts.foldl dictIncr m, 0 < p.2 := by
  induction ts generalizing m with
  | nil => exact h
  | cons tok ts ih =>
    rw [List.foldl_cons]
    apply ih
    intro p hp
    unfold dictIncr at hp
    by_cases hk : SparseVec.hasKey m tok
    · rw [if_pos hk] at hp
      rcases List.mem_map.mp hp with ⟨q, hq, hpq⟩
      by_cases hq1 : q.1 = tok
      · rw [if_pos hq1] at hpq
        have := h q hq
        rw [← hpq]
        positivity
      · rw [if_neg hq1] at hpq
        exact hpq ▸ h q hq
    · rw [if_neg hk] at hp
      rcases List.mem_append.mp hp with hp | hp
      · exact h p hp
      · have hnm : tok ∉ SparseVec.keys m :=
          fun hm => hk (SparseVec.hasKey_iff_mem_keys.mpr hm)
        rw [List.mem_singleton.mp hp, SparseVec.get_eq_zero_of_not_mem_keys hnm]
        norm_num

theorem SparseVec.get_self {v : SparseVec} (hnd : v.NodupKeys) {p : Term × ℚ}
    (hp : p ∈ v) : SparseVec.get v p.1 = p.2 := by
  induction v with
  | nil => cases hp
  | cons q v ih =>
    unfold SparseVec.NodupKeys at hnd
    rw [SparseVec.keys_cons, List.nodup_cons] at hnd
    rcases List.mem_cons.mp hp with h | h
    · subst h
      simp [SparseVec.get]
    · simp only [SparseVec.get]
      rw [if_neg (fun hq : q.1 = p.1 => hnd.1 (hq ▸ List.mem_map_of_mem (·.1) h))]
      exact ih hnd.2 h

/-! Scoring lemmas. -/

theorem dotProd_eq_zero_of_disjoint {q d : SparseVec}
    (h : ∀ t ∈ SparseVec.keys q, t ∉ SparseVec.keys d) : dotProd q d = 0 := by
  unfold dotProd
  apply List.sum_eq_zero
  intro x hx
  rcases List.mem_map.mp hx with ⟨p, hp, hpx⟩
  have : SparseVec.get d p.1 = 0 :=
    SparseVec.get_eq_zero_of_not_mem_keys (h p.1 (List.mem_map_of_mem (·.1) hp))
  rw [← hpx, this, mul_zero]

theorem dotProd_self {v : SparseVec} (hnd : v.NodupKeys) : dotProd v v = normSq v := by
  unfold dotProd normSq
  apply congrArg List.sum
  apply List.map_congr_left
  intro p hp
  rw [SparseVec.get_self hnd hp]

theorem normSq_nonneg (v : SparseVec) : 0 ≤ normSq v := by
  unfold normSq
  apply List.sum_nonneg
  intro x hx
  rcases List.mem_map.mp hx with ⟨p, _, hpx⟩
  rw [← hpx]
  exact mul_self_nonneg _

theorem normSq_pos {v : SparseVec} (hne : v ≠ []) (hpos : ∀ p ∈ v, 0 < p.2) :
    0 < normSq v := by
  unfold normSq
  apply List.sum_pos
  · intro x hx
    rcases List.mem_map.mp hx with ⟨p, hp, hpx⟩
    rw [← hpx]
    exact mul_pos (hpos p hp) (hpos p hp)
  · simpa using hne

theorem score_nil_left (d : SparseVec) : score [] d = 0 := by
  simp [score]

theorem score_nil_right (q : SparseVec) : score q [] = 0 := by
  simp [score]

theorem score_of_normSq_left_eq_zero {q : SparseVec} (d : SparseVec)
    (h : normSq q = 0) : score q d = 0 := by
  unfold score
  by_cases hqd : q.isEmpty || d.isEmpty
  · rw [if_pos hqd]
  · rw [if_neg hqd, if_neg]
    rintro ⟨hq, -⟩
    apply hq
    rw [h]
    simp

theorem score_of_normSq_right_eq_zero (q : SparseVec) {d : SparseVec}
    (h : normSq d = 0) : score q d = 0 := by
  unfold score
  by_cases hqd : q.isEmpty || d.isEmpty
  · rw [if_pos hqd]
  · rw [if_neg hqd, if_neg]
    rintro ⟨-, hd⟩
    apply hd
    rw [h]
    simp

theorem score_of_disjoint (q d : SparseVec)
    (h : ∀ t ∈ SparseVec.keys q, t ∉ SparseVec.keys d) : score q d = 0 := by
  unfold score
  by_cases hqd : q.isEmpty || d.isEmpty
  · rw [if_pos hqd]
  · rw [if_neg hqd]
    rw [dotProd_eq_zero_of_disjoint h]
    split
    · simp
    · rfl

/-- Claim C3: for every string whose vectorizer output is a non-empty
sparse vector Q (term counts as produced by `ingestVec`), the cosine score
of Q against itself is exactly 1. -/
theorem score_self_eq_one (s : List Char) (h : ingestVec s ≠ []) :
    score (ingestVec s) (ingestVec s) = 1 := by
  have hnd : (ingestVec s).NodupKeys :=
    nodupKeys_foldl_dictIncr _ _ (by simp [SparseVec.NodupKeys, SparseVec.keys])
  have hpos : ∀ p ∈ ingestVec s, 0 < p.2 :=
    pos_values_foldl_dictIncr _ _ (by simp)
  have hS : 0 < normSq (ingestVec s) := normSq_pos h hpos
  have hSR : (0:ℝ) < ((normSq (ingestVec s) : ℚ) : ℝ) := by exact_mod_cast hS
  have hsqrt : Real.sqrt ((normSq (ingestVec s) : ℚ) : ℝ) ≠ 0 :=
    ne_of_gt (Real.sqrt_pos.mpr hSR)
  unfold score
  rw [if_neg (by simp [h]), if_pos ⟨hsqrt, hsqrt⟩, dotProd_self hnd,
    Real.mul_self_sqrt hSR.le]
  exact div_self (ne_of_gt hSR)

/-- Witness for C3 at the concrete input "a". -/
theorem score_self_eq_one_witness :
    ingestVec ['a'] ≠ [] ∧ score (ingestVec ['a']) (ingestVec ['a']) = 1 :=
  ⟨by decide, score_self_eq_one ['a'] (by decide)⟩

/-- Claim C4: the scoring function is total and never divides by zero — it
returns 0 when the query dict is empty, when the document dict is empty,
when either squared norm is 0 (hence either float norm is 0), and when the
two vectors share no key; the division is taken only in the remaining
branch, where both norms are nonzero. -/
theorem score_degenerate_cases :
    (∀ d, score [] d = 0) ∧ (∀ q, score q [] = 0) ∧
    (∀ q d, normSq q = 0 → score q d = 0) ∧
    (∀ q d, normSq d = 0 → score q d = 0) ∧
    (∀ q d, (∀ t ∈ SparseVec.keys q, t ∉ SparseVec.keys d) → score q d = 0) :=
  ⟨score_nil_left, score_nil_right,
   fun _ d h => score_of_normSq_left_eq_zero d h,
   fun q _ h => score_of_normSq_right_eq_zero q h,
   score_of_disjoint⟩

/-- Witness for C4 at concrete inputs: a zero-valued vector (norm 0) and a
pair of vectors with disjoint keys. -/
theorem score_degenerate_cases_witness :
    normSq [(['a'], 0)] = 0 ∧ score [(['a'], 0)] [(['b'], 1)] = 0 ∧
    score [(['a'], 1)] [(['b'], 1)] = 0 :=
  ⟨by norm_num [normSq],
   score_degenerate_cases.2.2.1 _ _ (by norm_num [normSq]),
   score_degenerate_cases.2.2.2.2 _ _ (by decide)⟩

/-- Claim C7: the query-side tokenizer/vectorizer (`main.py` lines 131-134)
computes the same function as the ingestion-side one (lines 66-70). -/
theorem queryVec_eq_ingestVec : ∀ s : List Char, queryVec s = ingestVec s :=
  fun _ => rfl

/-! Chunking lemmas. -/

theorem chunkSlices_of_ne_nil {s : List Char} (h : s.length ≠ 0) :
    chunkSlices s
      = (List.range ((s.length + 499) / 500)).map (fun k => (s.drop (k * 500)).take 500) := by
  have e : s.length + 500 - 1 = s.length + 499 := by omega
  have hn : (s.length + 499) / 500 ≠ 0 := by
    intro h0
    rw [Nat.div_eq_zero_iff (by norm_num)] at h0
    omega
  unfold chunkSlices
  simp only [e]
  rw [if_neg]
  intro hc
  rw [List.isEmpty_iff, List.map_eq_nil_iff, List.range_eq_nil] at hc
  exact hn hc

theorem flatten_map_take_drop (s : List Char) (n : ℕ) :
    ((List.range n).map (fun k => (s.drop (k * 500)).take 500)).flatten
      = s.take (n * 500) := by
  induction n with
  | zero => simp
  | succ n ih =>
    rw [List.range_succ, List.map_append, List.flatten_append, ih]
    simp only [List.map_cons, List.map_nil, List.flatten_cons, List.flatten_nil,
      List.append_nil]
    rw [Nat.succ_mul, List.take_add]

/-- Claim C2: chunking a string of length L produces exactly
`max 1 ⌈L/500⌉` slices (`⌈L/500⌉ = (L+499)/500`), concatenating the slices
in order reproduces the string, every slice except possibly the last
(equivalently, every member of `dropLast`) has length exactly 500, and the
empty string produces exactly one empty slice. -/
theorem chunking_spec (s : List Char) :
    (chunkSlices s).length = max 1 ((s.length + 499) / 500) ∧
    (chunkSlices s).flatten = s ∧
    (∀ sl ∈ (chunkSlices s).dropLast, sl.length = 500) ∧
    chunkSlices [] = [[]] := by
  have hempty : chunkSlices [] = [[]] := rfl
  by_cases hL : s.length = 0
  · have hs : s = [] := List.length_eq_zero.mp hL
    subst hs
    refine ⟨by rw [hempty]; rfl, by rw [hempty]; rfl, ?_, hempty⟩
    intro sl hsl
    rw [hempty] at hsl
    simp at hsl
  · have hrw := chunkSlices_of_ne_nil hL
    have hdiv1 : 1 ≤ (s.length + 499) / 500 := by
      rw [Nat.le_div_iff_mul_le (by norm_num)]
      omega
    refine ⟨?_, ?_, ?_, hempty⟩
    · rw [hrw]
      simp only [List.length_map, List.length_range]
      omega
    · rw [hrw, flatten_map_take_drop]
      apply List.take_of_length_le
      have h1 := Nat.div_add_mod (s.length + 499) 500
      have h2 : (s.length + 499) % 500 < 500 := Nat.mod_lt _ (by norm_num)
      omega
    · intro sl hsl
      rw [hrw] at hsl
      have hsplit : List.range ((s.length + 499) / 500)
          = List.range ((s.length + 499) / 500 - 1) ++ [(s.length + 499) / 500 - 1] := by
        rw [← List.range_succ]
        congr 1
        omega
      rw [hsplit, List.map_append, List.map_cons, List.map_nil,
        List.dropLast_concat] at hsl
      rcases List.mem_map.mp hsl with ⟨k, hk, hks⟩
      have hklt : k < (s.length + 499) / 500 - 1 := List.mem_range.mp hk
      have hmul : ((s.length + 499) / 500) * 500 ≤ s.length + 499 :=
        Nat.div_mul_le_self _ _
      rw [← hks]
      simp only [List.length_take, List.length_drop]
      omega

set_option maxRecDepth 40000 in
/-- Witness for C2 at a concrete 600-character input, which chunks into a
500-character slice followed by a 100-character slice. -/
theorem chunking_spec_witness :
    List.replicate 500 'a' ∈ (chunkSlices (List.replicate 600 'a')).dropLast ∧
    (List.replicate 500 'a').length = 500 :=
  ⟨by decide, (chunking_spec (List.replicate 600 'a')).2.2.1 _ (by decide)⟩

/-- Claim C6: the vectorizer lowercases the slice, splits it on
whitespace, keeps exactly the tokens that are purely alphabetic or purely
alphanumeric (`ingestTokens`), and maps each kept term to the count of its
occurrences within that slice; the empty string yields the empty sparse
vector, and a token failing the filter (such as one with an embedded
non-alphanumeric character) is not a key of the resulting vector. -/
theorem vectorizer_spec :
    ingestVec [] = [] ∧
    (∀ s t, SparseVec.get (ingestVec s) t = ((ingestTokens s).count t : ℚ)) ∧
    (∀ s t, t ∈ SparseVec.keys (ingestVec s) ↔ t ∈ ingestTokens s) ∧
    (∀ s t, t ∈ pySplit (pyLower s) → (pyIsAlpha t || pyIsAlnum t) = false →
      t ∉ SparseVec.keys (ingestVec s)) := by
  refine ⟨rfl, ?_, ?_, ?_⟩
  · intro s t
    unfold ingestVec
    rw [get_foldl_dictIncr]
    simp [SparseVec.get]
  · intro s t
    unfold ingestVec
    rw [mem_keys_foldl_dictIncr]
    simp [SparseVec.keys]
  · intro s t _ hpred hmem
    unfold ingestVec at hmem
    rw [mem_keys_foldl_dictIncr] at hmem
    rcases hmem with h | h
    · simp [SparseVec.keys] at h
    · unfold ingestTokens at h
      rcases List.mem_filter.mp h with ⟨-, hp⟩
      rw [hpred] at hp
      cases hp

/-- Witness for C6: in the slice "don-t x" the token "don-t" (an embedded
non-alphanumeric character) is split off but dropped by the filter, so it
is not a key of the vector. -/
theorem vectorizer_spec_witness :
    ['d','o','n','-','t'] ∈ pySplit (pyLower ['d','o','n','-','t',' ','x']) ∧
    (pyIsAlpha ['d','o','n','-','t'] || pyIsAlnum ['d','o','n','-','t']) = false ∧
    ['d','o','n','-','t'] ∉ SparseVec.keys (ingestVec ['d','o','n','-','t',' ','x']) :=
  ⟨by decide, by decide, vectorizer_spec.2.2.2 _ _ (by decide) (by decide)⟩

/-! Search-ranking lemmas. -/

theorem mem_buildMatches_pos {qv : SparseVec} :
    ∀ {l : List ChunkRec} {m : SearchHit}, m ∈ buildMatches qv l → 0 < m.hitScore := by
  intro l
  induction l with
  | nil =>
    intro m h
    cases h
  | cons ch rest ih =>
    intro m h
    unfold buildMatches at h
    by_cases hs : 0 < score qv (ch.embedding.getD [])
    · rw [if_pos hs] at h
      rcases List.mem_cons.mp h with rfl | h
      · exact hs
      · exact ih h
    · rw [if_neg hs] at h
      exact ih h

theorem mem_buildMatches_from_chunk {qv : SparseVec} :
    ∀ {l : List ChunkRec} {m : SearchHit}, m ∈ buildMatches qv l →
      ∃ ch ∈ l, m.doc_id = ch.doc_id := by
  intro l
  induction l with
  | nil =>
    intro m h
    cases h
  | cons ch rest ih =>
    intro m h
    unfold buildMatches at h
    by_cases hs : 0 < score qv (ch.embedding.getD [])
    · rw [if_pos hs] at h
      rcases List.mem_cons.mp h with rfl | h
      · exact ⟨ch, List.mem_cons_self _ _, rfl⟩
      · rcases ih h with ⟨c, hc, hd⟩
        exact ⟨c, List.mem_cons_of_mem _ hc, hd⟩
    · rw [if_neg hs] at h
      rcases ih h with ⟨c, hc, hd⟩
      exact ⟨c, List.mem_cons_of_mem _ hc, hd⟩

/-- Claim C1: over any stored chunk sequence, search keeps a chunk as a
candidate only with strictly positive score, sorts candidates descending
by score with the stable sort (so any already-descending sublist of the
candidate list — in particular any run of ties in retrieval order —
survives as a sublist), and `matches[:top_k]` truncates to at most `top_k`
entries for a nonnegative `top_k`, with `top_k = 0` giving the empty
list. -/
theorem search_ranking_spec (q : List Char) (chunks : List ChunkRec) (k : ℤ)
    (hk : 0 ≤ k) :
    (∀ m ∈ rankedMatches (queryVec q) chunks, 0 < m.hitScore) ∧
    List.Sorted rankLe (rankedMatches (queryVec q) chunks) ∧
    (rankedMatches (queryVec q) chunks).Perm
      (buildMatches (queryVec q) (chunks.take 2000)) ∧
    (∀ c : List SearchHit, c.Sublist (buildMatches (queryVec q) (chunks.take 2000)) →
      c.Pairwise rankLe → c.Sublist (rankedMatches (queryVec q) chunks)) ∧
    searchMatches q k chunks = (rankedMatches (queryVec q) chunks).take k.toNat ∧
    (searchMatches q k chunks).length ≤ k.toNat ∧
    (k = 0 → searchMatches q k chunks = []) := by
  have hperm : (rankedMatches (queryVec q) chunks).Perm
      (buildMatches (queryVec q) (chunks.take 2000)) :=
    List.perm_insertionSort rankLe _
  have heq : searchMatches q k chunks
      = (rankedMatches (queryVec q) chunks).take k.toNat := by
    unfold searchMatches pyTakeTo
    rw [if_pos hk]
  refine ⟨?_, List.sorted_insertionSort rankLe _, hperm, ?_, heq, ?_, ?_⟩
  · intro m hm
    exact mem_buildMatches_pos (hperm.mem_iff.mp hm)
  · intro c hsub hpair
    exact List.sublist_insertionSort hpair hsub
  · rw [heq]
    exact List.length_take_le _ _
  · intro hk0
    subst hk0
    rw [heq]
    rfl

/-- Witness for C1 at a concrete input with `top_k = 0`. -/
theorem search_ranking_spec_witness : searchMatches ['a'] 0 [] = [] :=
  (search_ranking_spec ['a'] [] 0 (by decide)).2.2.2.2.2.2 rfl

/-- Claim C10 (theorem part, with the Python slice semantics of
`matches[:top_k]` for a negative `top_k` made explicit): for `top_k < 0`
search does not error and does not clamp to empty — it returns the sorted
positive-score matches with the last `|top_k|` entries removed. -/
theorem negative_topk_spec (q : List Char) (chunks : List ChunkRec) (k : ℤ)
    (hk : k < 0) :
    searchMatches q k chunks
      = (rankedMatches (queryVec q) chunks).take
          ((rankedMatches (queryVec q) chunks).length - (-k).toNat) := by
  unfold searchMatches pyTakeTo
  rw [if_neg (by omega)]

/-- Concrete scoring fact used by witnesses: a unit vector on the single
term "a" scores exactly 1 against itself. -/
theorem score_unit_single : score [(['a'], 1)] [(['a'], 1)] = 1 := by
  have hq : normSq [(['a'], 1)] = 1 := by norm_num [normSq]
  have hd : dotProd [(['a'], 1)] [(['a'], 1)] = 1 := by
    norm_num [dotProd, SparseVec.get]
  simp [score, hq, hd]

/-- Concrete two-chunk store used by witnesses: both chunks score 1, so
the ranked list keeps them in retrieval order. -/
def twoChunksA : List ChunkRec :=
  [{ doc_id := "d1", text := ['a'], embedding := some [(['a'], 1)] },
   { doc_id := "d2", text := ['a'], embedding := some [(['a'], 1)] }]

theorem queryVec_single_a : queryVec ['a'] = [(['a'], 1)] := by
  have h1 : queryTokens ['a'] = [['a']] := by decide
  unfold queryVec
  rw [h1]
  simp [dictIncr, SparseVec.hasKey, SparseVec.get]

theorem ranked_twoChunksA :
    rankedMatches (queryVec ['a']) twoChunksA
      = [{ doc_id := "d1", text := ['a'], hitScore := 1, metadata := none },
         { doc_id := "d2", text := ['a'], hitScore := 1, metadata := none }] := by
  unfold rankedMatches
  rw [show twoChunksA.take 2000 = twoChunksA from rfl, queryVec_single_a]
  unfold twoChunksA
  simp only [buildMatches, Option.getD_some]
  rw [score_unit_single]
  rw [if_pos (by norm_num : (0:ℝ) < 1)]
  simp [List.insertionSort, List.orderedInsert, rankLe]

/-- Witness for C10: with two positive-score matches and `top_k = -1`,
search returns one match (the ranked list minus its last entry) — neither
an error nor the empty list. -/
theorem negative_topk_spec_witness :
    (-1 : ℤ) < 0 ∧
    searchMatches ['a'] (-1) twoChunksA
      = [{ doc_id := "d1", text := ['a'], hitScore := 1, metadata := none }] := by
  constructor
  · decide
  · rw [negative_topk_spec ['a'] twoChunksA (-1) (by decide), ranked_twoChunksA]
    rfl

/-! Store lemmas. -/

theorem parseOid_oidString (n : ℕ) : parseOid (oidString n) = some n := by
  have ha : (List.replicate (n + 1) 'x').all (fun c => decide (c = 'x')) = true := by
    rw [List.all_eq_true]
    intro c hc
    simp [List.eq_of_mem_replicate hc]
  have hne : (List.replicate (n + 1) 'x').isEmpty = false := by
    rw [List.replicate_succ]
    rfl
  unfold parseOid oidString
  rw [show (String.mk (List.replicate (n + 1) 'x')).data = List.replicate (n + 1) 'x' from rfl]
  rw [hne, ha]
  simp

theorem oidString_injective {a b : ℕ} (h : oidString a = oidString b) : a = b := by
  have := congrArg parseOid h
  rw [parseOid_oidString, parseOid_oidString] at this
  exact Option.some.inj this

theorem deleteFirst_count_zero_iff (p : DocRec → Bool) (l : List DocRec) :
    (deleteFirst p l).2 = 0 ↔ ∀ d ∈ l, p d = false := by
  induction l with
  | nil => simp [deleteFirst]
  | cons d ds ih =>
    by_cases hd : p d
    · simp [deleteFirst, hd]
    · simp only [deleteFirst, Bool.not_eq_true] at hd
      simp [deleteFirst, hd, ih]

theorem deleteFirst_append_of_not_found {p : DocRec → Bool} {l1 : List DocRec}
    (h : ∀ d ∈ l1, p d = false) (l2 : List DocRec) :
    deleteFirst p (l1 ++ l2) = (l1 ++ (deleteFirst p l2).1, (deleteFirst p l2).2) := by
  induction l1 with
  | nil => simp
  | cons d ds ih =>
    have hd : p d = false := h d (List.mem_cons_self _ _)
    simp [deleteFirst, hd, ih (fun x hx => h x (List.mem_cons_of_mem _ hx))]

theorem deleteFirst_singleton_found {p : DocRec → Bool} {d : DocRec}
    (h : p d = true) : deleteFirst p [d] = ([], 1) := by
  simp [deleteFirst, h]

theorem delete_document_chunks (st : Store) (s : String) :
    (delete_document st s).2.chunks
      = st.chunks.filter (fun ch => !(ch.doc_id = s)) := by
  unfold delete_document
  cases hp : parseOid s <;> simp [apply_ite Prod.snd]

theorem delete_document_fst_none {st : Store} {s : String} (hp : parseOid s = none) :
    (delete_document st s).1 = Except.error 404 := by
  have hz : (deleteFirst (fun _ => false) st.documents).2 = 0 :=
    (deleteFirst_count_zero_iff _ _).mpr (fun _ _ => rfl)
  unfold delete_document
  rw [hp]
  simp [hz]

theorem delete_document_fst_some {st : Store} {s : String} {n : ℕ}
    (hp : parseOid s = some n) :
    (delete_document st s).1
      = if (deleteFirst (fun d => d.nativeId = n) st.documents).2 = 0
        then Except.error 404 else Except.ok () := by
  unfold delete_document
  rw [hp]
  simp [apply_ite Prod.fst]

theorem delete_document_snd_documents_some {st : Store} {s : String} {n : ℕ}
    (hp : parseOid s = some n) :
    (delete_document st s).2.documents
      = (deleteFirst (fun d => d.nativeId = n) st.documents).1 := by
  unfold delete_document
  rw [hp]
  simp [apply_ite Prod.snd]

/-- Claim C9: the delete endpoint reports not-found exactly when no
document record was deleted by either strategy (native-id deletion when
the identifier converts, the never-matching raw-string fallback when it
does not), while the cascading chunk deletion is applied to the store in
every case — a remaining chunk is exactly an old chunk whose `doc_id`
differs from the given identifier, whether or not 404 is reported. -/
theorem delete_not_found_iff (st : Store) (s : String) :
    ((delete_document st s).1 = Except.error 404 ↔
      ∀ d ∈ st.documents, ∀ n, parseOid s = some n → d.nativeId ≠ n) ∧
    (∀ ch : ChunkRec, ch ∈ (delete_document st s).2.chunks ↔
      ch ∈ st.chunks ∧ ch.doc_id ≠ s) := by
  constructor
  · cases hp : parseOid s with
    | none =>
      rw [delete_document_fst_none hp]
      simp
    | some n =>
      rw [delete_document_fst_some hp]
      by_cases hz : (deleteFirst (fun d => d.nativeId = n) st.documents).2 = 0
      · rw [if_pos hz]
        rw [deleteFirst_count_zero_iff] at hz
        constructor
        · intro _ d hd m hm
          have hf := hz d hd
          simp only [decide_eq_false_iff_not] at hf
          rw [← Option.some.inj hm]
          exact hf
        · intro _
          rfl
      · rw [if_neg hz]
        constructor
        · intro h
          cases h
        · intro h
          exfalso
          apply hz
          rw [deleteFirst_count_zero_iff]
          intro d hd
          simp only [decide_eq_false_iff_not]
          exact h d hd n rfl
  · intro ch
    rw [delete_document_chunks]
    simp [List.mem_filter]

/-- Witness for C9: trivial store, malformed identifier — 404 is reported
and the chunk membership characterization holds. -/
theorem delete_not_found_iff_witness :
    (delete_document ⟨[], [], 0⟩ "notanid").1 = Except.error 404 :=
  (delete_not_found_iff ⟨[], [], 0⟩ "notanid").1.mpr (fun _ hd => nomatch hd)

/-- Store well-formedness: ids already in the store were generated before
the current generator value. -/
def StoreWF (st : Store) : Prop :=
  (∀ d ∈ st.documents, d.nativeId < st.nextId) ∧
  (∀ ch ∈ st.chunks, ∀ n : ℕ, ch.doc_id = oidString n → n < st.nextId)

theorem ingestFile_snd (st : Store) (title : String) (text : List Char) :
    (ingestFile st title text).2 = oidString st.nextId := rfl

theorem ingestFile_fst_documents (st : Store) (title : String) (text : List Char) :
    (ingestFile st title text).1.documents
      = st.documents ++ [⟨st.nextId, title, text.length⟩] := rfl

theorem mem_pyTakeTo {α : Type} {k : ℤ} {l : List α} {a : α}
    (h : a ∈ pyTakeTo k l) : a ∈ l := by
  unfold pyTakeTo at h
  by_cases hk : 0 ≤ k
  · rw [if_pos hk] at h
    exact List.mem_of_mem_take h
  · rw [if_neg hk] at h
    exact List.mem_of_mem_take h

theorem mem_searchMatches_doc_id {q : List Char} {k : ℤ} {chunks : List ChunkRec}
    {m : SearchHit} (h : m ∈ searchMatches q k chunks) :
    ∃ ch ∈ chunks, m.doc_id = ch.doc_id := by
  unfold searchMatches at h
  have h1 : m ∈ rankedMatches (queryVec q) chunks := mem_pyTakeTo h
  have h2 : m ∈ buildMatches (queryVec q) (chunks.take 2000) :=
    (List.perm_insertionSort rankLe _).mem_iff.mp h1
  rcases mem_buildMatches_from_chunk h2 with ⟨ch, hch, hd⟩
  exact ⟨ch, List.mem_of_mem_take hch, hd⟩

theorem delete_after_ingest (st : Store)
    (hdocs : ∀ d ∈ st.documents, d.nativeId < st.nextId)
    (title : String) (text : List Char) :
    ((delete_document (ingestFile st title text).1 (ingestFile st title text).2).1
        = Except.ok ()) ∧
    ((delete_document (ingestFile st title text).1 (ingestFile st title text).2).2.documents
        = st.documents) := by
  have hparse : parseOid (oidString st.nextId) = some st.nextId :=
    parseOid_oidString st.nextId
  have hp1 : ∀ d ∈ st.documents,
      (fun d : DocRec => decide (d.nativeId = st.nextId)) d = false := by
    intro d hd
    simp [Nat.ne_of_lt (hdocs d hd)]
  have hnew : (fun d : DocRec => decide (d.nativeId = st.nextId))
      (⟨st.nextId, title, text.length⟩ : DocRec) = true := by simp
  have hdel : deleteFirst (fun d : DocRec => decide (d.nativeId = st.nextId))
      ((ingestFile st title text).1.documents) = (st.documents, 1) := by
    rw [ingestFile_fst_documents,
      deleteFirst_append_of_not_found hp1,
      deleteFirst_singleton_found hnew]
    simp
  constructor
  · rw [ingestFile_snd, delete_document_fst_some hparse, hdel]
    norm_num
  · rw [ingestFile_snd, delete_document_snd_documents_some hparse, hdel]

/-- Claim C5: over any well-formed store, ingesting a document and then
deleting it by the returned identifier succeeds (so the Document record is
deleted), leaves no document record carrying that identifier, leaves no
chunk whose `doc_id` equals that identifier, and a subsequent search over
the store returns no match carrying that identifier. -/
theorem ingest_delete_roundtrip (st : Store) (hwf : StoreWF st) (title : String)
    (text : List Char) (q : List Char) (k : ℤ) :
    ((delete_document (ingestFile st title text).1 (ingestFile st title text).2).1
        = Except.ok ()) ∧
    (∀ d ∈ (delete_document (ingestFile st title text).1
        (ingestFile st title text).2).2.documents,
      oidString d.nativeId ≠ (ingestFile st title text).2) ∧
    (∀ ch ∈ (delete_document (ingestFile st title text).1
        (ingestFile st title text).2).2.chunks,
      ch.doc_id ≠ (ingestFile st title text).2) ∧
    (∀ m ∈ searchMatches q k (delete_document (ingestFile st title text).1
        (ingestFile st title text).2).2.chunks,
      m.doc_id ≠ (ingestFile st title text).2) := by
  obtain ⟨hok, hdocs⟩ := delete_after_ingest st hwf.1 title text
  have hchunks : ∀ ch ∈ (delete_document (ingestFile st title text).1
      (ingestFile st title text).2).2.chunks,
      ch.doc_id ≠ (ingestFile st title text).2 := by
    intro ch hch
    rw [delete_document_chunks] at hch
    have hpred := (List.mem_filter.mp hch).2
    simp only [Bool.not_eq_eq_eq_not, Bool.not_true, decide_eq_false_iff_not] at hpred
    exact hpred
  refine ⟨hok, ?_, hchunks, ?_⟩
  · intro d hd
    rw [hdocs] at hd
    rw [ingestFile_snd]
    intro he
    exact Nat.ne_of_lt (hwf.1 d hd) (oidString_injective he)
  · intro m hm
    rcases mem_searchMatches_doc_id hm with ⟨ch, hch, hd⟩
    rw [hd]
    exact hchunks ch hch

/-- Witness for C5 on the empty store: ingesting one document and deleting
it by the returned id reports success (the Document record was found and
deleted). -/
theorem ingest_delete_roundtrip_witness :
    (delete_document (ingestFile ⟨[], [], 0⟩ "t" ['a']).1
        (ingestFile ⟨[], [], 0⟩ "t" ['a']).2).1 = Except.ok () :=
  (ingest_delete_roundtrip ⟨[], [], 0⟩
    (by unfold StoreWF; exact ⟨fun d hd => (nomatch hd), fun ch hch => nomatch hch⟩)
    "t" ['a'] ['a'] 5).1

/-! Dynamic-embedding lemmas (claim about missing / malformed embeddings). -/

theorem scoreDyn_empty_dict (qv : SparseVec) :
    scoreDyn qv (PyVal.dict []) = Except.ok 0 := by
  unfold scoreDyn
  rw [if_pos]
  simp [pyTruthy]

theorem scoreDyn_dict_ok (qv : SparseVec) (m : SparseVec) :
    ∃ r, scoreDyn qv (PyVal.dict m) = Except.ok r := by
  unfold scoreDyn
  by_cases hc : (qv.isEmpty || !pyTruthy (PyVal.dict m)) = true
  · rw [if_pos hc]
    exact ⟨0, rfl⟩
  · rw [if_neg hc]
    exact ⟨score qv m, rfl⟩

theorem buildMatchesDyn_cons (qv : SparseVec) (ch : ChunkDyn)
    (rest : List ChunkDyn) :
    buildMatchesDyn qv (ch :: rest)
      = match scoreDyn qv (ch.embedding.getD (PyVal.dict [])) with
        | .error e => .error e
        | .ok s =>
          match buildMatchesDyn qv rest with
          | .error e => .error e
          | .ok ms =>
            .ok (if 0 < s then
              { doc_id := ch.doc_id, text := ch.text.take 500, hitScore := s,
                metadata := ch.metadata } :: ms
            else ms) := rfl

theorem buildMatchesDyn_cons_missing {qv : SparseVec} {ch : ChunkDyn}
    {rest : List ChunkDyn} (h : ch.embedding = none) :
    buildMatchesDyn qv (ch :: rest) = buildMatchesDyn qv rest := by
  rw [buildMatchesDyn_cons, h]
  simp only [Option.getD_none, scoreDyn_empty_dict]
  cases hb : buildMatchesDyn qv rest with
  | error e => rfl
  | ok ms => simp [lt_irrefl]

/-- Counterexample to claim C8 as stated: a stored chunk whose `embedding`
field holds a malformed (truthy, non-mapping) value — here the string
"x" — makes the match-building loop raise an `AttributeError` instead of
treating the embedding as the empty map and excluding the chunk. -/
theorem malformed_embedding_raises :
    buildMatchesDyn (queryVec ['a'])
      [{ doc_id := "d", text := [], embedding := some (PyVal.str "x"),
         metadata := none }]
      = Except.error "AttributeError" := by
  rw [queryVec_single_a]
  rfl

/-- Amended C8: a chunk whose `embedding` field is missing is treated as
carrying the empty map — its score evaluates to `ok 0`, it contributes no
match, and it raises no error; more generally, search cannot fail as long
as every scanned chunk's embedding is missing or an actual mapping.  (A
present, truthy, non-mapping embedding raises instead; see the
counterexample.) -/
theorem missing_embedding_treated_empty :
    (∀ qv : SparseVec, ∀ ch : ChunkDyn, ch.embedding = none →
      scoreDyn qv (ch.embedding.getD (PyVal.dict [])) = Except.ok 0) ∧
    (∀ qv : SparseVec, ∀ ch : ChunkDyn, ∀ rest : List ChunkDyn,
      ch.embedding = none →
      buildMatchesDyn qv (ch :: rest) = buildMatchesDyn qv rest) ∧
    (∀ qv : SparseVec, ∀ chunks : List ChunkDyn,
      (∀ ch ∈ chunks, ch.embedding = none ∨ ∃ m, ch.embedding = some (PyVal.dict m)) →
      ∃ ms, buildMatchesDyn qv chunks = Except.ok ms) := by
  refine ⟨?_, ?_, ?_⟩
  · intro qv ch h
    rw [h]
    exact scoreDyn_empty_dict qv
  · intro qv ch rest h
    exact buildMatchesDyn_cons_missing h
  · intro qv chunks h
    induction chunks with
    | nil => exact ⟨[], rfl⟩
    | cons ch rest ih =>
      obtain ⟨ms, hms⟩ := ih (fun c hc => h c (List.mem_cons_of_mem _ hc))
      rcases h ch (List.mem_cons_self _ _) with hnone | ⟨m, hm⟩
      · exact ⟨ms, by rw [buildMatchesDyn_cons_missing hnone, hms]⟩
      · obtain ⟨r, hr⟩ := scoreDyn_dict_ok qv m
        refine ⟨if 0 < r then
            { doc_id := ch.doc_id, text := ch.text.take 500, hitScore := r,
              metadata := ch.metadata } :: ms
          else ms, ?_⟩
        rw [buildMatchesDyn_cons, hm]
        simp only [Option.getD_some, hr, hms]

/-- Witness for the amended C8: one chunk with a missing embedding — the
scan succeeds and the chunk is simply excluded. -/
theorem missing_embedding_treated_empty_witness :
    buildMatchesDyn (queryVec ['a'])
      [{ doc_id := "d", text := [], embedding := none, metadata := none }]
      = Except.ok [] :=
  (missing_embedding_treated_empty.2.1 (queryVec ['a'])
      { doc_id := "d", text := [], embedding := none, metadata := none } []
      rfl).trans rfl
